import Mathlib

/-!
Verification of the invest-mate financial-ledger engine (src/utils.ts,
src/App.tsx, src/types.ts) against its natural-language specification.

Dates: the source stores ISO `YYYY-MM-DD` strings and manipulates them
through the JavaScript `Date` object.  A string parsed by `new Date(iso)`
and written back by `toISOString().split('T')[0]` is fully described by its
(year, month, day) components (the host is modelled as running in the UTC
zone, so local-time and UTC views of a date coincide); we therefore embed
dates as triples and embed each `Date` manipulation of the source by its
effect on the components.
-/

namespace InvestMate

/-- Gregorian leap-year rule, as implemented by the JavaScript `Date` object. -/
def isLeapYear (y : Int) : Bool :=
  y % 4 == 0 && (y % 100 != 0 || y % 400 == 0)

/-- Number of days of month `m` (1-based) of year `y` in the Gregorian
calendar, as used by JavaScript `Date` normalization. -/
def daysInMonth (y : Int) (m : Nat) : Nat :=
  if m = 2 then (if isLeapYear y then 29 else 28)
  else if m = 4 ∨ m = 6 ∨ m = 9 ∨ m = 11 then 30
  else 31

/-- A calendar date: the components of an ISO `YYYY-MM-DD` string. -/
structure Date where
  year : Int
  month : Nat
  day : Nat
deriving DecidableEq, Repr

/-- The triple denotes a real calendar date. -/
def Date.Valid (d : Date) : Prop :=
  1 ≤ d.month ∧ d.month ≤ 12 ∧ 1 ≤ d.day ∧ d.day ≤ daysInMonth d.year d.month

instance (d : Date) : Decidable d.Valid := by
  unfold Date.Valid; infer_instance

/-- Absolute month index of a date: `12 * year + (month - 1)`.  Two dates lie
in the same calendar month iff their indices agree. -/
def monthIdx (d : Date) : Int :=
  12 * d.year + ((d.month : Int) - 1)

/-- Chronological strict order on dates (lexicographic on month index then
day), matching the order of the underlying JavaScript timestamps for valid
dates. -/
def dateLt (a b : Date) : Prop :=
  monthIdx a < monthIdx b ∨ (monthIdx a = monthIdx b ∧ a.day < b.day)

/-- Chronological non-strict order on dates, as a boolean (the source
compares `Date` objects with `<=` / `>=`, i.e. by timestamp). -/
def dateLeB (a b : Date) : Bool :=
  decide (monthIdx a < monthIdx b) ||
    (decide (monthIdx a = monthIdx b) && decide (a.day ≤ b.day))

/-- `daysInMonth` is at least 28 ... -/
theorem daysInMonth_ge (y : Int) (m : Nat) : 28 ≤ daysInMonth y m := by
  unfold daysInMonth; split <;> [split <;> omega; split <;> omega]

/-- ... and at most 31. -/
theorem daysInMonth_le (y : Int) (m : Nat) : daysInMonth y m ≤ 31 := by
  unfold daysInMonth; split <;> [split <;> omega; split <;> omega]

/-- `date.setMonth(date.getMonth() + n)` followed by reading the date back:
month-index arithmetic, with a day-of-month larger than the target month's
length overflowing into the following month (for the day values `1..31` of a
valid input date a single roll always suffices, which is what JavaScript's
normalization produces). -/
def addMonthsJS (d : Date) (n : Nat) : Date :=
  let m0 := d.month - 1 + n
  let y : Int := d.year + (m0 / 12 : Nat)
  let m : Nat := m0 % 12 + 1
  if d.day ≤ daysInMonth y m then ⟨y, m, d.day⟩
  else if m = 12 then ⟨y + 1, 1, d.day - daysInMonth y m⟩
  else ⟨y, m + 1, d.day - daysInMonth y m⟩

/-- src/utils.ts `calculateEndDate`: parse the start date, `setMonth(getMonth()
+ months)`, and re-serialize. -/
def calculateEndDate (d : Date) (months : Nat) : Date :=
  addMonthsJS d months

/-- src/utils.ts `getPeriodDueDate`: parse the start date, `setMonth(getMonth()
+ periodIndex)`, and re-serialize. -/
def getPeriodDueDate (d : Date) (periodIndex : Nat) : Date :=
  addMonthsJS d periodIndex

/-- The length of the month reached by pure month-index arithmetic `n` months
after `d` (the month `setMonth` targets before day normalization). -/
def targetDim (d : Date) (n : Nat) : Nat :=
  daysInMonth (d.year + ((d.month - 1 + n) / 12 : Nat)) ((d.month - 1 + n) % 12 + 1)

/-- Month addition as the specification describes it: `n` calendar months
ahead, with the day-of-month clamped to the target month's length. -/
def clampAddMonths (d : Date) (n : Nat) : Date :=
  let m0 := d.month - 1 + n
  let y : Int := d.year + (m0 / 12 : Nat)
  let m : Nat := m0 % 12 + 1
  ⟨y, m, min d.day (daysInMonth y m)⟩

/-- The date the code produces when the day overflows: `day − targetDim` of
the month following the target month. -/
def overflowAddMonths (d : Date) (n : Nat) : Date :=
  let m1 := d.month - 1 + n + 1
  ⟨d.year + (m1 / 12 : Nat), m1 % 12 + 1, d.day - targetDim d n⟩

/-- Characterization of `addMonthsJS`: when the day fits in the target month
the result is the clamped month addition (the clamp is a no-op), and
otherwise the day overflows into the month after the target month. -/
theorem addMonthsJS_eq (d : Date) (h : d.Valid) (n : Nat) :
    addMonthsJS d n =
      if d.day ≤ targetDim d n then clampAddMonths d n else overflowAddMonths d n := by
  obtain ⟨h1, h2, h3, h4⟩ := h
  unfold addMonthsJS clampAddMonths overflowAddMonths targetDim
  by_cases hfit : d.day ≤ daysInMonth (d.year + ((d.month - 1 + n) / 12 : Nat)) ((d.month - 1 + n) % 12 + 1)
  · simp only [hfit, if_true, if_pos]
    exact congrArg _ (Nat.min_eq_left hfit).symm
  · simp only [hfit, if_false, if_neg]
    by_cases h12 : (d.month - 1 + n) % 12 + 1 = 12
    · simp only [h12, if_pos]
      have hm : (d.month - 1 + n) % 12 = 11 := by omega
      have hdiv : (d.month - 1 + n + 1) / 12 = (d.month - 1 + n) / 12 + 1 := by omega
      have hmod : (d.month - 1 + n + 1) % 12 = 0 := by omega
      simp only [hdiv, hmod, h12]
      rw [Date.mk.injEq]
      refine ⟨by push_cast; ring, by norm_num, rfl⟩
    · simp only [h12, if_neg, not_false_iff]
      have hdiv : (d.month - 1 + n + 1) / 12 = (d.month - 1 + n) / 12 := by omega
      have hmod : (d.month - 1 + n + 1) % 12 = (d.month - 1 + n) % 12 + 1 := by omega
      simp [hdiv, hmod]

/-- Case analysis of `addMonthsJS`: either the day fits in the target month
(month index advances by exactly `n`, day preserved), or it overflows (month
index advances by `n + 1`, day becomes the excess over the target month's
length). -/
theorem addMonthsJS_cases (d : Date) (h : d.Valid) (n : Nat) :
    (d.day ≤ targetDim d n ∧
       monthIdx (addMonthsJS d n) = monthIdx d + n ∧ (addMonthsJS d n).day = d.day) ∨
    (targetDim d n < d.day ∧
       monthIdx (addMonthsJS d n) = monthIdx d + n + 1 ∧
       (addMonthsJS d n).day = d.day - targetDim d n) := by
  obtain ⟨h1, h2, h3, h4⟩ := h
  rw [addMonthsJS_eq d ⟨h1, h2, h3, h4⟩ n]
  by_cases hfit : d.day ≤ targetDim d n
  · left
    refine ⟨hfit, ?_, ?_⟩ <;> simp only [if_pos hfit, clampAddMonths, monthIdx]
    · omega
    · unfold targetDim at hfit
      exact Nat.min_eq_left hfit
  · right
    refine ⟨by omega, ?_, ?_⟩ <;> simp only [if_neg hfit, overflowAddMonths, monthIdx]
    omega

theorem dateLt_trans {a b c : Date} (h1 : dateLt a b) (h2 : dateLt b c) : dateLt a c := by
  unfold dateLt at *; omega

/-- Each successive application of `setMonth` yields a strictly later date. -/
theorem addMonthsJS_lt_succ (d : Date) (h : d.Valid) (n : Nat) :
    dateLt (addMonthsJS d n) (addMonthsJS d (n + 1)) := by
  have h28 : 28 ≤ targetDim d n := by unfold targetDim; exact daysInMonth_ge _ _
  rcases addMonthsJS_cases d h n with ⟨hle, hm, hday⟩ | ⟨hlt, hm, hday⟩ <;>
    rcases addMonthsJS_cases d h (n + 1) with ⟨hle2, hm2, hday2⟩ | ⟨hlt2, hm2, hday2⟩ <;>
    unfold dateLt <;> omega

theorem addMonthsJS_strictMono (d : Date) (h : d.Valid) :
    ∀ {i j : Nat}, i < j → dateLt (addMonthsJS d i) (addMonthsJS d j) := by
  intro i j hij
  induction j with
  | zero => omega
  | succ j ih =>
    rcases Nat.lt_succ_iff_lt_or_eq.mp hij with hc | hc
    · exact dateLt_trans (ih hc) (addMonthsJS_lt_succ d h j)
    · rw [hc]; exact addMonthsJS_lt_succ d h j

/-- The schedule of an investment: the due dates of periods `1..n` (the
sequence every interest loop in the source iterates over). -/
def dueDates (d : Date) (n : Nat) : List Date :=
  (List.range n).map (fun j => getPeriodDueDate d (j + 1))

/-- C1 (counterexample): the source's month addition does NOT clamp the
day-of-month; one month after 2025-01-31 it produces 2025-03-03, not the
claimed 2025-02-28. -/
theorem claim1_counterexample :
    calculateEndDate ⟨2025, 1, 31⟩ 1 = ⟨2025, 3, 3⟩ ∧
    clampAddMonths ⟨2025, 1, 31⟩ 1 = ⟨2025, 2, 28⟩ ∧
    calculateEndDate ⟨2025, 1, 31⟩ 1 ≠ clampAddMonths ⟨2025, 1, 31⟩ 1 := by
  decide

/-- C1 (amended): for every valid date `d` and `n ≥ 0`, `calculateEndDate d n`
is the clamped month addition whenever `d`'s day fits in the target month, and
otherwise overflows the excess days into the month after the target month
(JavaScript `setMonth` semantics); `calculateEndDate d 0 = d`. -/
theorem claim1_calculateEndDate (d : Date) (h : d.Valid) (n : Nat) :
    calculateEndDate d 0 = d ∧
    calculateEndDate d n =
      (if d.day ≤ targetDim d n then clampAddMonths d n else overflowAddMonths d n) := by
  obtain ⟨h1, h2, h3, h4⟩ := h
  constructor
  · obtain ⟨y, m, dd⟩ := d
    simp only [Date.Valid] at h1 h2 h3 h4
    simp only [calculateEndDate, addMonthsJS]
    have e1 : (m - 1 + 0) / 12 = 0 := by omega
    have e2 : (m - 1 + 0) % 12 + 1 = m := by omega
    rw [e1, e2]
    simp only [Nat.cast_zero, add_zero]
    rw [if_pos h4]
  · exact addMonthsJS_eq d ⟨h1, h2, h3, h4⟩ n

/-- C1 (witness). -/
theorem claim1_witness :
    Date.Valid ⟨2025, 1, 15⟩ ∧
    (calculateEndDate ⟨2025, 1, 15⟩ 0 = ⟨2025, 1, 15⟩ ∧
      calculateEndDate ⟨2025, 1, 15⟩ 1 =
        (if (15 : Nat) ≤ targetDim ⟨2025, 1, 15⟩ 1 then clampAddMonths ⟨2025, 1, 15⟩ 1
         else overflowAddMonths ⟨2025, 1, 15⟩ 1)) :=
  ⟨by decide, claim1_calculateEndDate ⟨2025, 1, 15⟩ (by decide) 1⟩

/-- C3 (counterexample): for start date 2025-01-31 the first two due dates are
2025-03-03 and 2025-03-31 — both fall in March 2025, so the schedule does not
contain one date in each of the months following the start month. -/
theorem claim3_counterexample :
    getPeriodDueDate ⟨2025, 1, 31⟩ 1 = ⟨2025, 3, 3⟩ ∧
    getPeriodDueDate ⟨2025, 1, 31⟩ 2 = ⟨2025, 3, 31⟩ ∧
    monthIdx (getPeriodDueDate ⟨2025, 1, 31⟩ 1) =
      monthIdx (getPeriodDueDate ⟨2025, 1, 31⟩ 2) := by
  decide

/-- C3 (amended): the schedule has exactly `n` due dates and is strictly
increasing; when the start day-of-month is at most 28 (so no month overflow
can occur) the `j`-th due date falls in exactly the `j`-th calendar month
after the start month, one per month. -/
theorem claim3_dueDates (d : Date) (h : d.Valid) (n : Nat) :
    (dueDates d n).length = n ∧
    (dueDates d n).Pairwise dateLt ∧
    (d.day ≤ 28 → ∀ j, j < n →
      monthIdx (getPeriodDueDate d (j + 1)) = monthIdx d + (j + 1 : Int)) := by
  refine ⟨by simp [dueDates], ?_, ?_⟩
  · unfold dueDates
    rw [List.pairwise_map]
    exact List.pairwise_lt_range n |>.imp
      (fun hab => addMonthsJS_strictMono d h (by omega))
  · intro hd j _
    have h28 : 28 ≤ targetDim d (j + 1) := by unfold targetDim; exact daysInMonth_ge _ _
    rcases addMonthsJS_cases d h (j + 1) with ⟨_, hm, _⟩ | ⟨hlt, _, _⟩
    · rw [getPeriodDueDate, hm]; push_cast; ring
    · omega

/-- C3 (witness). -/
theorem claim3_witness :
    Date.Valid ⟨2025, 1, 15⟩ ∧
    ((dueDates ⟨2025, 1, 15⟩ 6).length = 6 ∧
      (dueDates ⟨2025, 1, 15⟩ 6).Pairwise dateLt ∧
      (Date.day ⟨2025, 1, 15⟩ ≤ 28 → ∀ j, j < 6 →
        monthIdx (getPeriodDueDate ⟨2025, 1, 15⟩ (j + 1)) =
          monthIdx ⟨2025, 1, 15⟩ + (j + 1 : Int))) :=
  ⟨by decide, claim3_dueDates ⟨2025, 1, 15⟩ (by decide) 6⟩

/-! ### Calendar adapter: ROC input strings -/

/-- The decimal digit character for `d < 10`. -/
def charOfDigit (d : Nat) : Char := Char.ofNat (48 + d)

/-- Numeric value of a digit character. -/
def digitVal (c : Char) : Nat := c.toNat - 48

/-- `parseInt(s, 10)` on an all-digit character string. -/
def parseDigits (l : List Char) : Nat :=
  l.foldl (fun a c => 10 * a + digitVal c) 0

/-- Big-endian decimal digits of `n`, with explicit fuel (any `fuel ≥ n`
yields the digits of `n`). -/
def natToCharsAux : Nat → Nat → List Char
  | 0, _ => []
  | fuel + 1, n =>
    if n = 0 then [] else natToCharsAux fuel (n / 10) ++ [charOfDigit (n % 10)]

/-- Decimal rendering of a natural number (JavaScript number-to-string in a
template literal). -/
def natToChars (n : Nat) : List Char :=
  if n = 0 then ['0'] else natToCharsAux n n

/-- Decimal rendering of an integer. -/
def intToChars (i : Int) : List Char :=
  if i < 0 then '-' :: natToChars i.natAbs else natToChars i.toNat

/-- `n.toString().padStart(2, '0')` for the month/day components. -/
def pad2 (n : Nat) : List Char :=
  if n < 10 then '0' :: natToChars n else natToChars n

/-- src/utils.ts `rocInputToISO`: strip every non-digit character, accept only
6- or 7-digit results, split as era-year / month / day, add the fixed 1911 era
offset to the year, validate the month range and the day (the source validates
the day by building `new Date(year, month-1, day)` and checking that all three
components read back unchanged; for a month already known to lie in `1..12`
and a day parsed from at most two digits this holds exactly when
`1 ≤ day ≤ daysInMonth year month`), then re-serialize as zero-padded ISO. -/
def rocInputToISO (s : String) : Option String :=
  let clean := s.data.filter Char.isDigit
  if clean.length ≠ 6 ∧ clean.length ≠ 7 then none
  else
    let yearStr := if clean.length = 7 then clean.take 3 else clean.take 2
    let monthStr := if clean.length = 7 then (clean.drop 3).take 2 else (clean.drop 2).take 2
    let dayStr := if clean.length = 7 then (clean.drop 5).take 2 else (clean.drop 4).take 2
    let year := parseDigits yearStr + 1911
    let month := parseDigits monthStr
    let day := parseDigits dayStr
    if month < 1 ∨ 12 < month then none
    else if day < 1 ∨ daysInMonth (year : Int) month < day then none
    else some ⟨natToChars year ++ '-' :: pad2 month ++ '-' :: pad2 day⟩

/-- src/utils.ts `isoToROCInput`: parse the ISO string (identity on the date
components), subtract the 1911 era offset from the year, and concatenate with
zero-padded month and day. -/
def isoToROCInput (d : Date) : String :=
  ⟨intToChars (d.year - 1911) ++ pad2 d.month ++ pad2 d.day⟩

/-- ISO `YYYY-MM-DD` serialization of a date
(`toISOString().split('T')[0]`), for positive years. -/
def toISO (d : Date) : String :=
  ⟨intToChars d.year ++ '-' :: pad2 d.month ++ '-' :: pad2 d.day⟩

theorem digitVal_charOfDigit : ∀ d < 10, digitVal (charOfDigit d) = d := by decide

theorem isDigit_charOfDigit : ∀ d < 10, (charOfDigit d).isDigit = true := by decide

theorem natToCharsAux_zero (fuel : Nat) : natToCharsAux fuel 0 = [] := by
  cases fuel <;> simp [natToCharsAux]

/-- Folding the parse step over the digits of `n` starting from accumulator
`a` yields `a` shifted past those digits, plus `n`. -/
theorem parse_natToCharsAux : ∀ fuel n a, n ≤ fuel →
    List.foldl (fun x c => 10 * x + digitVal c) a (natToCharsAux fuel n)
      = a * 10 ^ (natToCharsAux fuel n).length + n := by
  intro fuel
  induction fuel with
  | zero => intro n a h; interval_cases n; simp [natToCharsAux]
  | succ fuel ih =>
    intro n a h
    by_cases hn : n = 0
    · subst hn; simp [natToCharsAux]
    · have hdiv : n / 10 ≤ fuel := by
        have := Nat.div_lt_self (Nat.pos_of_ne_zero hn) (by norm_num : (1:Nat) < 10)
        omega
      simp only [natToCharsAux, if_neg hn, List.foldl_append, List.foldl_cons,
        List.foldl_nil, List.length_append, List.length_cons, List.length_nil]
      rw [ih (n / 10) a hdiv, digitVal_charOfDigit (n % 10) (Nat.mod_lt n (by norm_num))]
      have hnm := Nat.div_add_mod n 10
      ring_nf
      omega

theorem parseDigits_natToChars (n : Nat) : parseDigits (natToChars n) = n := by
  by_cases hn : n = 0
  · subst hn; decide
  · unfold parseDigits natToChars
    rw [if_neg hn, parse_natToCharsAux n n 0 le_rfl]
    omega

theorem isDigit_of_mem_natToCharsAux :
    ∀ fuel n c, c ∈ natToCharsAux fuel n → c.isDigit = true := by
  intro fuel
  induction fuel with
  | zero => intro n c hc; simp [natToCharsAux] at hc
  | succ fuel ih =>
    intro n c hc
    by_cases hn : n = 0
    · subst hn; simp [natToCharsAux] at hc
    · simp only [natToCharsAux, if_neg hn, List.mem_append, List.mem_singleton] at hc
      rcases hc with hc | hc
      · exact ih _ c hc
      · subst hc; exact isDigit_charOfDigit _ (Nat.mod_lt n (by norm_num))

theorem isDigit_of_mem_natToChars (n : Nat) :
    ∀ c ∈ natToChars n, c.isDigit = true := by
  intro c hc
  unfold natToChars at hc
  by_cases hn : n = 0
  · rw [if_pos hn] at hc; simp at hc; subst hc; decide
  · rw [if_neg hn] at hc; exact isDigit_of_mem_natToCharsAux n n c hc

theorem isDigit_of_mem_pad2 (n : Nat) : ∀ c ∈ pad2 n, c.isDigit = true := by
  intro c hc
  unfold pad2 at hc
  by_cases hn : n < 10
  · rw [if_pos hn] at hc
    rcases List.mem_cons.mp hc with hc | hc
    · subst hc; decide
    · exact isDigit_of_mem_natToChars n c hc
  · rw [if_neg hn] at hc; exact isDigit_of_mem_natToChars n c hc

theorem natToCharsAux_length_one (fuel n : Nat) (hf : n ≤ fuel) (h1 : 1 ≤ n)
    (h9 : n < 10) : (natToCharsAux fuel n).length = 1 := by
  cases fuel with
  | zero => omega
  | succ fuel =>
    have hdiv : n / 10 = 0 := Nat.div_eq_of_lt h9
    have hne : ¬ n = 0 := by omega
    simp only [natToCharsAux, if_neg hne, hdiv, natToCharsAux_zero, List.nil_append,
      List.length_cons, List.length_nil]

theorem natToCharsAux_length_two (fuel n : Nat) (hf : n ≤ fuel) (h1 : 10 ≤ n)
    (h9 : n < 100) : (natToCharsAux fuel n).length = 2 := by
  cases fuel with
  | zero => omega
  | succ fuel =>
    have hne : ¬ n = 0 := by omega
    simp only [natToCharsAux, if_neg hne, List.length_append, List.length_cons,
      List.length_nil]
    rw [natToCharsAux_length_one fuel (n / 10) (by omega) (by omega) (by omega)]

theorem natToCharsAux_length_three (fuel n : Nat) (hf : n ≤ fuel) (h1 : 100 ≤ n)
    (h9 : n < 1000) : (natToCharsAux fuel n).length = 3 := by
  cases fuel with
  | zero => omega
  | succ fuel =>
    have hne : ¬ n = 0 := by omega
    simp only [natToCharsAux, if_neg hne, List.length_append, List.length_cons,
      List.length_nil]
    rw [natToCharsAux_length_two fuel (n / 10) (by omega) (by omega) (by omega)]

theorem pad2_length (n : Nat) (h : n < 100) : (pad2 n).length = 2 := by
  unfold pad2 natToChars
  by_cases h10 : n < 10
  · rw [if_pos h10]
    by_cases hn : n = 0
    · simp [hn]
    · simp only [if_neg hn, List.length_cons]
      rw [natToCharsAux_length_one n n le_rfl (by omega) h10]
  · rw [if_neg h10, if_neg (by omega : ¬ n = 0)]
    exact natToCharsAux_length_two n n le_rfl (by omega) h

theorem parseDigits_pad2 (n : Nat) : parseDigits (pad2 n) = n := by
  unfold pad2
  by_cases h10 : n < 10
  · rw [if_pos h10]
    show List.foldl _ (10 * 0 + digitVal ('0' : Char)) (natToChars n) = n
    have : 10 * 0 + digitVal ('0' : Char) = 0 := by decide
    rw [this]
    exact parseDigits_natToChars n
  · rw [if_neg h10]
    exact parseDigits_natToChars n

theorem natToChars_length_two (r : Nat) (h1 : 10 ≤ r) (h2 : r < 100) :
    (natToChars r).length = 2 := by
  unfold natToChars
  rw [if_neg (by omega)]
  exact natToCharsAux_length_two r r le_rfl h1 h2

theorem natToChars_length_three (r : Nat) (h1 : 100 ≤ r) (h2 : r < 1000) :
    (natToChars r).length = 3 := by
  unfold natToChars
  rw [if_neg (by omega)]
  exact natToCharsAux_length_three r r le_rfl h1 h2

/-- Parsing an era-year / month / day string rendered from components: the
strict parser accepts it and returns the zero-padded ISO serialization. -/
theorem rocInputToISO_roundtrip_core (r m dd : Nat)
    (hr1 : 10 ≤ r) (hr2 : r ≤ 999) (hm1 : 1 ≤ m) (hm2 : m ≤ 12)
    (hd1 : 1 ≤ dd) (hd2 : dd ≤ daysInMonth ((r + 1911 : Nat) : Int) m) :
    rocInputToISO ⟨natToChars r ++ pad2 m ++ pad2 dd⟩
      = some ⟨natToChars (r + 1911) ++ '-' :: pad2 m ++ '-' :: pad2 dd⟩ := by
  have hdd100 : dd < 100 := by
    have := daysInMonth_le ((r + 1911 : Nat) : Int) m; omega
  have hm100 : m < 100 := by omega
  have hml := pad2_length m hm100
  have hdl := pad2_length dd hdd100
  have hfil : (⟨natToChars r ++ pad2 m ++ pad2 dd⟩ : String).data.filter Char.isDigit
      = natToChars r ++ pad2 m ++ pad2 dd := by
    refine List.filter_eq_self.mpr ?_
    intro c hc
    rcases List.mem_append.mp hc with hc | hc
    · rcases List.mem_append.mp hc with hc | hc
      · exact isDigit_of_mem_natToChars r c hc
      · exact isDigit_of_mem_pad2 m c hc
    · exact isDigit_of_mem_pad2 dd c hc
  push_cast at hd2
  by_cases hr100 : r < 100
  · have hyl := natToChars_length_two r hr1 hr100
    have hlen : (natToChars r ++ pad2 m ++ pad2 dd).length = 6 := by
      simp only [List.length_append]; omega
    have htake : (natToChars r ++ (pad2 m ++ pad2 dd)).take 2 = natToChars r :=
      List.take_left' hyl
    have hdrop2 : ((natToChars r ++ (pad2 m ++ pad2 dd)).drop 2).take 2 = pad2 m := by
      rw [List.drop_left' hyl]; exact List.take_left' hml
    have hdrop4 : ((natToChars r ++ (pad2 m ++ pad2 dd)).drop 4).take 2 = pad2 dd := by
      rw [← List.append_assoc, List.drop_left' (by simp only [List.length_append]; omega :
        (natToChars r ++ pad2 m).length = 4), ← hdl, List.take_length]
    simp only [rocInputToISO, hfil, hlen]
    norm_num
    rw [htake, hdrop2, hdrop4, parseDigits_natToChars, parseDigits_pad2, parseDigits_pad2]
    refine ⟨⟨by omega, by omega⟩, ⟨by omega, hd2⟩, rfl⟩
  · have hyl := natToChars_length_three r (by omega) (by omega)
    have hlen : (natToChars r ++ pad2 m ++ pad2 dd).length = 7 := by
      simp only [List.length_append]; omega
    have htake : (natToChars r ++ (pad2 m ++ pad2 dd)).take 3 = natToChars r :=
      List.take_left' hyl
    have hdrop3 : ((natToChars r ++ (pad2 m ++ pad2 dd)).drop 3).take 2 = pad2 m := by
      rw [List.drop_left' hyl]; exact List.take_left' hml
    have hdrop5 : ((natToChars r ++ (pad2 m ++ pad2 dd)).drop 5).take 2 = pad2 dd := by
      rw [← List.append_assoc, List.drop_left' (by simp only [List.length_append]; omega :
        (natToChars r ++ pad2 m).length = 5), ← hdl, List.take_length]
    simp only [rocInputToISO, hfil, hlen]
    norm_num
    rw [htake, hdrop3, hdrop5, parseDigits_natToChars, parseDigits_pad2, parseDigits_pad2]
    refine ⟨⟨by omega, by omega⟩, ⟨by omega, hd2⟩, rfl⟩

/-- C2 (counterexample): for the year 1912 (ROC year 1) the rendered input
string is the 5-character "10101", which the 6/7-digit strict parser rejects,
so the round trip fails even though the year is at least 1912. -/
theorem claim2_counterexample :
    Date.Valid ⟨1912, 1, 1⟩ ∧ (1912 : Int) ≤ Date.year ⟨1912, 1, 1⟩ ∧
    isoToROCInput ⟨1912, 1, 1⟩ = ("10101") ∧
    rocInputToISO (isoToROCInput ⟨1912, 1, 1⟩) = none := by
  decide

/-- C2 (amended): the round trip `rocInputToISO (isoToROCInput d) = d` holds
for every valid date whose year lies in 1921..2910, i.e. whose ROC era year
has two or three decimal digits (the parser accepts only 6- or 7-digit
strings). -/
theorem claim2_roundtrip (d : Date) (h : d.Valid) (h1 : 1921 ≤ d.year)
    (h2 : d.year ≤ 2910) :
    rocInputToISO (isoToROCInput d) = some (toISO d) := by
  obtain ⟨hm1, hm2, hd1, hd2⟩ := h
  have hiso : isoToROCInput d
      = ⟨natToChars (d.year - 1911).toNat ++ pad2 d.month ++ pad2 d.day⟩ := by
    unfold isoToROCInput intToChars
    rw [if_neg (by omega)]
  have hyy : (((d.year - 1911).toNat + 1911 : Nat) : Int) = d.year := by omega
  have hday : d.day ≤ daysInMonth (((d.year - 1911).toNat + 1911 : Nat) : Int) d.month := by
    rw [hyy]; exact hd2
  rw [hiso, rocInputToISO_roundtrip_core (d.year - 1911).toNat d.month d.day
    (by omega) (by omega) hm1 hm2 hd1 hday]
  have hymain : natToChars ((d.year - 1911).toNat + 1911) = intToChars d.year := by
    unfold intToChars
    rw [if_neg (by omega)]
    congr 1
    omega
  unfold toISO
  rw [← hymain]

/-- C2 (witness). -/
theorem claim2_witness :
    (Date.Valid ⟨2025, 12, 7⟩ ∧ 1921 ≤ Date.year ⟨2025, 12, 7⟩ ∧
      Date.year ⟨2025, 12, 7⟩ ≤ 2910) ∧
    rocInputToISO (isoToROCInput ⟨2025, 12, 7⟩) = some (toISO ⟨2025, 12, 7⟩) :=
  ⟨⟨by decide, by decide, by decide⟩,
    claim2_roundtrip ⟨2025, 12, 7⟩ (by decide) (by decide) (by decide)⟩

/-- C4 (counterexample): the 6-digit input "990101" does not parse to
1910-01-01 — the era offset gives 99 + 1911 = 2010. -/
theorem claim4_counterexample :
    rocInputToISO ("990101") ≠ some ("1910-01-01") := by decide

/-- C4 (amended): "1140715" parses to 2025-07-15 and "990101" parses to
2010-01-01, both per the fixed era offset of 1911 years added to the era
year (99 + 1911 = 2010, not 1910 as the claim's second example stated). -/
theorem claim4_parse :
    rocInputToISO ("1140715") = some ("2025-07-15") ∧
    rocInputToISO ("990101") = some ("2010-01-01") := by decide

/-- C10: the strict parser first removes every non-digit character, so its
result depends only on the digit subsequence of the input; in particular
"114/07/15" is accepted and parses to 2025-07-15. -/
theorem claim10_digits_only :
    (∀ s : String, rocInputToISO s = rocInputToISO ⟨s.data.filter Char.isDigit⟩) ∧
    rocInputToISO ("114/07/15") = some ("2025-07-15") := by
  constructor
  · intro s
    have hclean : (⟨s.data.filter Char.isDigit⟩ : String).data.filter Char.isDigit
        = s.data.filter Char.isDigit := by
      show (s.data.filter Char.isDigit).filter Char.isDigit = _
      rw [List.filter_filter]
      simp only [Bool.and_self]
    unfold rocInputToISO
    rw [hclean]
  · decide

/-! ### Data model (src/types.ts) -/

inductive InvestmentStatus
  | Active | Renewed | Returned | Reinvested | Defaulted
deriving DecidableEq, Repr

structure PaymentRecord where
  isPaid : Bool
  paidDate : Option String
  note : Option String
deriving DecidableEq, Repr

structure Funder where
  id : String
  name : String
  amount : Int
  ticketNumber : Option String
deriving DecidableEq, Repr

/-- An investment record.  Dates are embedded as component triples (see the
header note); `rate` and `introFeeRate` are decimal percentages. -/
structure Investment where
  id : String
  source : String
  funders : List Funder
  amount : Int
  rate : ℚ
  introFeeRate : ℚ
  introFeePaid : Bool
  introFeePaidDate : Option String
  startDate : Date
  endDate : Date
  duration : Nat
  ticketNumber : Option String
  note : String
  status : InvestmentStatus
  paymentHistory : List (Nat × PaymentRecord)
  order : Int
deriving DecidableEq, Repr

/-- Lookup `h[i]` in a payment history (`Record<number, PaymentRecord>`
modeled as an association list with at most one entry per key; lookup takes
the first matching entry). -/
def histLookup (h : List (Nat × PaymentRecord)) (i : Nat) : Option PaymentRecord :=
  match h with
  | [] => none
  | p :: t => if p.1 = i then some p.2 else histLookup t i

/-- `h[i] = r` on a payment history object. -/
def histSet (h : List (Nat × PaymentRecord)) (i : Nat) (r : PaymentRecord) :
    List (Nat × PaymentRecord) :=
  match h with
  | [] => [(i, r)]
  | p :: t => if p.1 = i then (i, r) :: t else p :: histSet t i r

/-- `h[i]?.isPaid || false`. -/
def histPaidB (h : List (Nat × PaymentRecord)) (i : Nat) : Bool :=
  ((histLookup h i).map PaymentRecord.isPaid).getD false

/-- JavaScript `Math.round`: floor of `q + 1/2`. -/
def jsRound (q : ℚ) : Int := ⌊q + 1 / 2⌋

/-- `Math.round(inv.amount * (inv.rate / 100))`, the flat monthly interest
used throughout the source. -/
def monthlyInterest (inv : Investment) : Int :=
  jsRound (inv.amount * (inv.rate / 100))

/-- The `YYYY-MM` bucket key of a date, as the (year, month) pair. -/
def monthKey (d : Date) : Int × Nat := (d.year, d.month)

/-! ### Ledger aggregator (src/utils.ts `getMonthlyReport`) -/

structure InterestDetail where
  invId : String
  source : String
  ticketNumber : Option String
  amount : Int
  period : Nat
  rate : ℚ
  dueDate : Date
  isPaid : Bool
  paidDate : Option String
deriving DecidableEq, Repr

structure CapitalDetail where
  source : String
  ticketNumber : Option String
  amount : Int
  date : Date
deriving DecidableEq, Repr

/-- One month's bucket of the report.  `monthStr` is the `YYYY-MM` key as a
(year, month) pair; the source's derived `rocMonth` display string
(`${year-1911}/${month}`) is presentation-only and omitted. -/
structure MonthlyReportItem where
  monthStr : Int × Nat
  newCapital : Int
  returnedCapital : Int
  interestExpected : Int
  interestActual : Int
  interestDetails : List InterestDetail
  capitalInDetails : List CapitalDetail
  capitalOutDetails : List CapitalDetail
deriving DecidableEq, Repr

/-- src/utils.ts `initReportMonth`. -/
def initReportMonth (k : Int × Nat) : MonthlyReportItem :=
  ⟨k, 0, 0, 0, 0, [], [], []⟩

/-- `if(!report[key]) initReportMonth(report, key)` followed by a mutation of
`report[key]`: update the unique entry with key `k`, inserting a freshly
initialized one first when absent. -/
def updateReport (rep : List MonthlyReportItem) (k : Int × Nat)
    (f : MonthlyReportItem → MonthlyReportItem) : List MonthlyReportItem :=
  match rep with
  | [] => [f (initReportMonth k)]
  | it :: rest => if it.monthStr = k then f it :: rest else it :: updateReport rest k f

/-- Step 1 of `getMonthlyReport`'s per-investment body: add the principal to
the start month's new-capital total and detail list. -/
def capInUpdate (inv : Investment) (it : MonthlyReportItem) : MonthlyReportItem :=
  { it with newCapital := it.newCapital + inv.amount,
            capitalInDetails := it.capitalInDetails ++
              [⟨inv.source, inv.ticketNumber, inv.amount, inv.startDate⟩] }

/-- Step 2: add the principal to the end month's returned-capital total and
detail list. -/
def capOutUpdate (inv : Investment) (it : MonthlyReportItem) : MonthlyReportItem :=
  { it with returnedCapital := it.returnedCapital + inv.amount,
            capitalOutDetails := it.capitalOutDetails ++
              [⟨inv.source, inv.ticketNumber, inv.amount, inv.endDate⟩] }

/-- Step 3, for period `j+1`: add the monthly interest to the due month's
expected total, to its actual total when that period is paid, and push the
detail row. -/
def interestUpdate (inv : Investment) (j : Nat) (it : MonthlyReportItem) :
    MonthlyReportItem :=
  { it with interestExpected := it.interestExpected + monthlyInterest inv,
            interestActual := it.interestActual +
              (if histPaidB inv.paymentHistory (j + 1) then monthlyInterest inv else 0),
            interestDetails := it.interestDetails ++
              [⟨inv.id, inv.source, inv.ticketNumber, monthlyInterest inv, j + 1,
                inv.rate, addMonthsJS inv.startDate (j + 1),
                histPaidB inv.paymentHistory (j + 1),
                (histLookup inv.paymentHistory (j + 1)).bind
                  PaymentRecord.paidDate⟩] }

/-- The body of `getMonthlyReport`'s `forEach`: bucket the principal into the
start month (new capital) and end month (returned capital), then for each
period `1..duration` bucket the monthly interest into the month of that
period's due date. -/
def addInvToReport (rep : List MonthlyReportItem) (inv : Investment) :
    List MonthlyReportItem :=
  let r1 := updateReport rep (monthKey inv.startDate) (capInUpdate inv)
  let r2 := updateReport r1 (monthKey inv.endDate) (capOutUpdate inv)
  (List.range inv.duration).foldl (fun acc j =>
    updateReport acc (monthKey (addMonthsJS inv.startDate (j + 1)))
      (interestUpdate inv j)) r2

/-- Ascending order on `YYYY-MM` keys (`localeCompare` on the zero-padded
key strings coincides with lexicographic (year, month) order for the
four-digit years in use). -/
def monthKeyLeB (a b : Int × Nat) : Bool :=
  decide (a.1 < b.1) || (decide (a.1 = b.1) && decide (a.2 ≤ b.2))

def insertByMonth (x : MonthlyReportItem) : List MonthlyReportItem → List MonthlyReportItem
  | [] => [x]
  | y :: t => if monthKeyLeB x.monthStr y.monthStr then x :: y :: t else y :: insertByMonth x t

def sortByMonth : List MonthlyReportItem → List MonthlyReportItem
  | [] => []
  | x :: t => insertByMonth x (sortByMonth t)

/-- src/utils.ts `getMonthlyReport`: fold every investment into the keyed
report object, then return the buckets sorted ascending by month key. -/
def getMonthlyReport (investments : List Investment) : List MonthlyReportItem :=
  sortByMonth (investments.foldl addInvToReport [])

/-- Total expected interest across all buckets of a report. -/
def sumExpected (rep : List MonthlyReportItem) : Int :=
  (rep.map MonthlyReportItem.interestExpected).sum

theorem sumExpected_updateReport (rep : List MonthlyReportItem) (k : Int × Nat)
    (f : MonthlyReportItem → MonthlyReportItem) (x : Int)
    (hf : ∀ it, (f it).interestExpected = it.interestExpected + x) :
    sumExpected (updateReport rep k f) = sumExpected rep + x := by
  induction rep with
  | nil => simp [updateReport, sumExpected, hf, initReportMonth]
  | cons it rest ih =>
    by_cases hk : it.monthStr = k
    · simp only [updateReport, if_pos hk, sumExpected, List.map_cons, List.sum_cons, hf]
      ring
    · simp only [updateReport, if_neg hk, sumExpected, List.map_cons, List.sum_cons]
      simp only [sumExpected] at ih
      rw [ih]
      ring

theorem sumExpected_interest_foldl (L : List Nat) (rep : List MonthlyReportItem)
    (key : Nat → Int × Nat) (F : Nat → MonthlyReportItem → MonthlyReportItem) (x : Int)
    (hF : ∀ j it, (F j it).interestExpected = it.interestExpected + x) :
    sumExpected (L.foldl (fun acc j => updateReport acc (key j) (F j)) rep)
      = sumExpected rep + x * L.length := by
  induction L generalizing rep with
  | nil => simp
  | cons j t ih =>
    simp only [List.foldl_cons, List.length_cons]
    rw [ih (updateReport rep (key j) (F j)),
      sumExpected_updateReport rep (key j) (F j) x (hF j)]
    push_cast
    ring

theorem sumExpected_addInv (rep : List MonthlyReportItem) (inv : Investment) :
    sumExpected (addInvToReport rep inv)
      = sumExpected rep + monthlyInterest inv * inv.duration := by
  show sumExpected ((List.range inv.duration).foldl
      (fun acc j => updateReport acc (monthKey (addMonthsJS inv.startDate (j + 1)))
        (interestUpdate inv j))
      (updateReport (updateReport rep (monthKey inv.startDate) (capInUpdate inv))
        (monthKey inv.endDate) (capOutUpdate inv))) = _
  rw [sumExpected_interest_foldl _ _ _ _ (monthlyInterest inv) (fun j it => rfl),
    sumExpected_updateReport _ _ _ 0 (fun it => by simp [capOutUpdate]),
    sumExpected_updateReport _ _ _ 0 (fun it => by simp [capInUpdate]),
    List.length_range]
  ring

theorem insertByMonth_perm (x : MonthlyReportItem) (l : List MonthlyReportItem) :
    (insertByMonth x l).Perm (x :: l) := by
  induction l with
  | nil => exact List.Perm.refl _
  | cons y t ih =>
    by_cases hc : monthKeyLeB x.monthStr y.monthStr
    · simp only [insertByMonth, if_pos hc]
      exact List.Perm.refl _
    · simp only [insertByMonth, if_neg hc]
      exact (ih.cons y).trans (List.Perm.swap x y t)

theorem sortByMonth_perm (l : List MonthlyReportItem) : (sortByMonth l).Perm l := by
  induction l with
  | nil => exact List.Perm.refl _
  | cons x t ih => exact (insertByMonth_perm x (sortByMonth t)).trans (ih.cons x)

/-- C5: summing `interestExpected` over all months of `getMonthlyReport`
gives the sum over all investments of `round(amount * rate / 100)` times that
investment's duration. -/
theorem claim5_expected_total (invs : List Investment) :
    ((getMonthlyReport invs).map MonthlyReportItem.interestExpected).sum
      = (invs.map (fun inv => monthlyInterest inv * inv.duration)).sum := by
  have hsort : ((getMonthlyReport invs).map MonthlyReportItem.interestExpected).sum
      = sumExpected (invs.foldl addInvToReport []) := by
    unfold getMonthlyReport sumExpected
    exact ((sortByMonth_perm _).map _).sum_eq
  rw [hsort]
  have main : ∀ (l : List Investment) (rep), sumExpected (l.foldl addInvToReport rep)
      = sumExpected rep + (l.map (fun inv => monthlyInterest inv * inv.duration)).sum := by
    intro l
    induction l with
    | nil => intro rep; simp
    | cons inv t ih =>
      intro rep
      simp only [List.foldl_cons, List.map_cons, List.sum_cons]
      rw [ih, sumExpected_addInv]
      ring
  rw [main invs []]
  simp [sumExpected]

/-! ### Order-independence of the aggregator -/

/-- The four per-month totals the determinism property compares. -/
structure Totals where
  newCapital : Int
  returnedCapital : Int
  interestExpected : Int
  interestActual : Int
deriving DecidableEq, Repr

def Totals.add (a b : Totals) : Totals :=
  ⟨a.newCapital + b.newCapital, a.returnedCapital + b.returnedCapital,
   a.interestExpected + b.interestExpected, a.interestActual + b.interestActual⟩

def zeroTotals : Totals := ⟨0, 0, 0, 0⟩

def sumTotals : List Totals → Totals
  | [] => zeroTotals
  | t :: ts => Totals.add t (sumTotals ts)

theorem Totals.add_zeroT (a : Totals) : Totals.add a zeroTotals = a := by
  obtain ⟨a1, a2, a3, a4⟩ := a; simp [Totals.add, zeroTotals]

theorem Totals.zeroT_add (a : Totals) : Totals.add zeroTotals a = a := by
  obtain ⟨a1, a2, a3, a4⟩ := a; simp [Totals.add, zeroTotals]

theorem Totals.add_assocT (a b c : Totals) :
    Totals.add (Totals.add a b) c = Totals.add a (Totals.add b c) := by
  obtain ⟨a1, a2, a3, a4⟩ := a
  obtain ⟨b1, b2, b3, b4⟩ := b
  obtain ⟨c1, c2, c3, c4⟩ := c
  simp only [Totals.add, Totals.mk.injEq]
  omega

theorem Totals.add_commT (a b : Totals) : Totals.add a b = Totals.add b a := by
  obtain ⟨a1, a2, a3, a4⟩ := a
  obtain ⟨b1, b2, b3, b4⟩ := b
  simp only [Totals.add, Totals.mk.injEq]
  omega

theorem sumTotals_perm {l₁ l₂ : List Totals} (h : l₁.Perm l₂) :
    sumTotals l₁ = sumTotals l₂ := by
  induction h with
  | nil => rfl
  | cons x _ ih => simp only [sumTotals, ih]
  | swap x y t =>
    simp only [sumTotals, ← Totals.add_assocT]
    rw [Totals.add_commT y x]
  | trans _ _ ih1 ih2 => exact ih1.trans ih2

/-- Lookup of the unique bucket with key `k` (`report[key]`). -/
def lookupMonth : List MonthlyReportItem → (Int × Nat) → Option MonthlyReportItem
  | [], _ => none
  | it :: rest, k => if it.monthStr = k then some it else lookupMonth rest k

def totalsOf (it : MonthlyReportItem) : Totals :=
  ⟨it.newCapital, it.returnedCapital, it.interestExpected, it.interestActual⟩

/-- The four totals of month `k` of a report (all zero when the month has no
bucket). -/
def totalsAt (rep : List MonthlyReportItem) (k : Int × Nat) : Totals :=
  ((lookupMonth rep k).map totalsOf).getD zeroTotals

/-- Month `k` has a bucket in the report. -/
def hasMonth (rep : List MonthlyReportItem) (k : Int × Nat) : Prop :=
  (lookupMonth rep k).isSome = true

theorem totalsAt_cons (x : MonthlyReportItem) (l : List MonthlyReportItem)
    (k : Int × Nat) :
    totalsAt (x :: l) k = if x.monthStr = k then totalsOf x else totalsAt l k := by
  by_cases h : x.monthStr = k <;> simp [totalsAt, lookupMonth, h]

theorem totalsAt_updateReport (rep : List MonthlyReportItem) (k : Int × Nat)
    (f : MonthlyReportItem → MonthlyReportItem) (dt : Totals)
    (hkey : ∀ it, (f it).monthStr = it.monthStr)
    (hd : ∀ it, totalsOf (f it) = Totals.add (totalsOf it) dt) (k' : Int × Nat) :
    totalsAt (updateReport rep k f) k'
      = Totals.add (totalsAt rep k') (if k' = k then dt else zeroTotals) := by
  induction rep with
  | nil =>
    have hm : (f (initReportMonth k)).monthStr = k := by rw [hkey]; rfl
    show totalsAt [f (initReportMonth k)] k' = _
    rw [totalsAt_cons, hm]
    have hnil : totalsAt ([] : List MonthlyReportItem) k' = zeroTotals := rfl
    by_cases hk : k' = k
    · rw [if_pos hk.symm, if_pos hk, hd,
        show totalsOf (initReportMonth k) = zeroTotals from rfl, Totals.zeroT_add,
        hnil, Totals.zeroT_add]
    · rw [if_neg (fun hh => hk hh.symm), if_neg hk, hnil, Totals.add_zeroT]
  | cons it rest ih =>
    show totalsAt (if it.monthStr = k then f it :: rest else it :: updateReport rest k f) k'
      = _
    by_cases hk : it.monthStr = k
    · rw [if_pos hk, totalsAt_cons, totalsAt_cons, hkey]
      by_cases hx : it.monthStr = k'
      · have hkk : k' = k := by rw [← hx, hk]
        rw [if_pos hx, if_pos hx, hd, if_pos hkk]
      · have hkk : ¬ k' = k := fun hh => hx (by rw [hk, ← hh])
        rw [if_neg hx, if_neg hx, if_neg hkk, Totals.add_zeroT]
    · rw [if_neg hk, totalsAt_cons, totalsAt_cons]
      by_cases hx : it.monthStr = k'
      · have hkk : ¬ k' = k := fun hh => hk (by rw [hx, hh])
        rw [if_pos hx, if_pos hx, if_neg hkk, Totals.add_zeroT]
      · rw [if_neg hx, if_neg hx]
        exact ih

theorem isSome_lookupMonth_cons (x : MonthlyReportItem) (l : List MonthlyReportItem)
    (k : Int × Nat) :
    (lookupMonth (x :: l) k).isSome
      = (decide (x.monthStr = k) || (lookupMonth l k).isSome) := by
  by_cases h : x.monthStr = k <;> simp [lookupMonth, h]

theorem isSome_updateReport (rep : List MonthlyReportItem) (k : Int × Nat)
    (f : MonthlyReportItem → MonthlyReportItem)
    (hkey : ∀ it, (f it).monthStr = it.monthStr) (k' : Int × Nat) :
    (lookupMonth (updateReport rep k f) k').isSome
      = ((lookupMonth rep k').isSome || decide (k' = k)) := by
  induction rep with
  | nil =>
    have hm : (f (initReportMonth k)).monthStr = k := by rw [hkey]; rfl
    show (lookupMonth [f (initReportMonth k)] k').isSome = _
    rw [isSome_lookupMonth_cons, hm]
    by_cases hk : k' = k
    · simp [lookupMonth, hk]
    · have hk2 : ¬ k = k' := fun hh => hk hh.symm
      simp [lookupMonth, hk, hk2]
  | cons it rest ih =>
    show (lookupMonth
        (if it.monthStr = k then f it :: rest else it :: updateReport rest k f) k').isSome = _
    by_cases hk : it.monthStr = k
    · rw [if_pos hk, isSome_lookupMonth_cons, isSome_lookupMonth_cons, hkey]
      by_cases hx : it.monthStr = k'
      · have hkk : k' = k := by rw [← hx, hk]
        simp [hx, hkk]
      · have hkk : ¬ k' = k := fun hh => hx (by rw [hk, ← hh])
        simp [hx, hkk]
    · rw [if_neg hk, isSome_lookupMonth_cons, isSome_lookupMonth_cons, ih, Bool.or_assoc]

theorem totalsAt_interest_foldl (L : List Nat) (rep : List MonthlyReportItem)
    (key : Nat → Int × Nat) (F : Nat → MonthlyReportItem → MonthlyReportItem)
    (df : Nat → Totals)
    (hkey : ∀ j it, (F j it).monthStr = it.monthStr)
    (hd : ∀ j it, totalsOf (F j it) = Totals.add (totalsOf it) (df j)) (k' : Int × Nat) :
    totalsAt (L.foldl (fun acc j => updateReport acc (key j) (F j)) rep) k'
      = Totals.add (totalsAt rep k')
          (sumTotals (L.map (fun j => if k' = key j then df j else zeroTotals))) := by
  induction L generalizing rep with
  | nil => simp [sumTotals, Totals.add_zeroT]
  | cons j t ih =>
    simp only [List.foldl_cons, List.map_cons, sumTotals]
    rw [ih, totalsAt_updateReport rep (key j) (F j) (df j) (hkey j) (hd j) k',
      Totals.add_assocT]

theorem isSome_interest_foldl (L : List Nat) (rep : List MonthlyReportItem)
    (key : Nat → Int × Nat) (F : Nat → MonthlyReportItem → MonthlyReportItem)
    (hkey : ∀ j it, (F j it).monthStr = it.monthStr) (k' : Int × Nat) :
    (lookupMonth (L.foldl (fun acc j => updateReport acc (key j) (F j)) rep) k').isSome
      = ((lookupMonth rep k').isSome || L.any (fun j => decide (k' = key j))) := by
  induction L generalizing rep with
  | nil => simp
  | cons j t ih =>
    simp only [List.foldl_cons, List.any_cons]
    rw [ih, isSome_updateReport rep (key j) (F j) (hkey j), Bool.or_assoc]

/-- The interest contribution of period `j+1` of an investment. -/
def interestDelta (inv : Investment) (j : Nat) : Totals :=
  ⟨0, 0, monthlyInterest inv,
    if histPaidB inv.paymentHistory (j + 1) then monthlyInterest inv else 0⟩

/-- The total contribution of a single investment to the bucket of month `k`:
principal into the start month and end month, interest per period into its
due month. -/
def invContrib (inv : Investment) (k : Int × Nat) : Totals :=
  Totals.add
    (Totals.add
      (if k = monthKey inv.startDate then ⟨inv.amount, 0, 0, 0⟩ else zeroTotals)
      (if k = monthKey inv.endDate then ⟨0, inv.amount, 0, 0⟩ else zeroTotals))
    (sumTotals ((List.range inv.duration).map
      (fun j => if k = monthKey (addMonthsJS inv.startDate (j + 1))
                then interestDelta inv j else zeroTotals)))

theorem totalsAt_addInv (rep : List MonthlyReportItem) (inv : Investment)
    (k : Int × Nat) :
    totalsAt (addInvToReport rep inv) k
      = Totals.add (totalsAt rep k) (invContrib inv k) := by
  show totalsAt ((List.range inv.duration).foldl
      (fun acc j => updateReport acc (monthKey (addMonthsJS inv.startDate (j + 1)))
        (interestUpdate inv j))
      (updateReport (updateReport rep (monthKey inv.startDate) (capInUpdate inv))
        (monthKey inv.endDate) (capOutUpdate inv))) k = _
  rw [totalsAt_interest_foldl (List.range inv.duration) _
      (fun j => monthKey (addMonthsJS inv.startDate (j + 1))) (interestUpdate inv)
      (fun j => interestDelta inv j)
      (fun j it => rfl)
      (fun j it => by
        obtain ⟨a, b, c, d, e, g, p, q⟩ := it
        simp [interestUpdate, totalsOf, interestDelta, Totals.add]) k,
    totalsAt_updateReport _ (monthKey inv.endDate) (capOutUpdate inv)
      ⟨0, inv.amount, 0, 0⟩ (fun it => rfl)
      (fun it => by
        obtain ⟨a, b, c, d, e, g, p, q⟩ := it
        simp [capOutUpdate, totalsOf, Totals.add]) k,
    totalsAt_updateReport _ (monthKey inv.startDate) (capInUpdate inv)
      ⟨inv.amount, 0, 0, 0⟩ (fun it => rfl)
      (fun it => by
        obtain ⟨a, b, c, d, e, g, p, q⟩ := it
        simp [capInUpdate, totalsOf, Totals.add]) k]
  simp only [invContrib, Totals.add_assocT]

/-- A month has a bucket after adding an investment iff it already had one or
the investment touches that month. -/
def touchesB (inv : Investment) (k : Int × Nat) : Bool :=
  decide (k = monthKey inv.startDate) || decide (k = monthKey inv.endDate) ||
    (List.range inv.duration).any
      (fun j => decide (k = monthKey (addMonthsJS inv.startDate (j + 1))))

theorem isSome_addInv (rep : List MonthlyReportItem) (inv : Investment)
    (k : Int × Nat) :
    (lookupMonth (addInvToReport rep inv) k).isSome
      = ((lookupMonth rep k).isSome || touchesB inv k) := by
  show (lookupMonth ((List.range inv.duration).foldl
      (fun acc j => updateReport acc (monthKey (addMonthsJS inv.startDate (j + 1)))
        (interestUpdate inv j))
      (updateReport (updateReport rep (monthKey inv.startDate) (capInUpdate inv))
        (monthKey inv.endDate) (capOutUpdate inv))) k).isSome = _
  rw [isSome_interest_foldl (List.range inv.duration) _
      (fun j => monthKey (addMonthsJS inv.startDate (j + 1))) (interestUpdate inv)
      (fun j it => rfl) k,
    isSome_updateReport _ (monthKey inv.endDate) (capOutUpdate inv) (fun it => rfl) k,
    isSome_updateReport _ (monthKey inv.startDate) (capInUpdate inv) (fun it => rfl) k]
  simp only [touchesB, Bool.or_assoc]

theorem totalsAt_report_foldl :
    ∀ (l : List Investment) (rep : List MonthlyReportItem) (k : Int × Nat),
    totalsAt (l.foldl addInvToReport rep) k
      = Totals.add (totalsAt rep k) (sumTotals (l.map (fun inv => invContrib inv k))) := by
  intro l
  induction l with
  | nil => intro rep k; simp [sumTotals, Totals.add_zeroT]
  | cons inv t ih =>
    intro rep k
    simp only [List.foldl_cons, List.map_cons, sumTotals]
    rw [ih, totalsAt_addInv, Totals.add_assocT]

theorem isSome_report_foldl :
    ∀ (l : List Investment) (rep : List MonthlyReportItem) (k : Int × Nat),
    (lookupMonth (l.foldl addInvToReport rep) k).isSome
      = ((lookupMonth rep k).isSome || l.any (fun inv => touchesB inv k)) := by
  intro l
  induction l with
  | nil => intro rep k; simp
  | cons inv t ih =>
    intro rep k
    simp only [List.foldl_cons, List.any_cons]
    rw [ih, isSome_addInv, Bool.or_assoc]

/-- The JS report object has at most one bucket per month key. -/
def keysNodup (rep : List MonthlyReportItem) : Prop :=
  (rep.map MonthlyReportItem.monthStr).Nodup

theorem mem_keys_updateReport (rep : List MonthlyReportItem) (k : Int × Nat)
    (f : MonthlyReportItem → MonthlyReportItem)
    (hkey : ∀ it, (f it).monthStr = it.monthStr) (x : Int × Nat) :
    x ∈ (updateReport rep k f).map MonthlyReportItem.monthStr ↔
      x ∈ rep.map MonthlyReportItem.monthStr ∨ x = k := by
  induction rep with
  | nil =>
    have hm : (f (initReportMonth k)).monthStr = k := by rw [hkey]; rfl
    show x ∈ [f (initReportMonth k)].map MonthlyReportItem.monthStr ↔ _
    simp [hm]
  | cons it rest ih =>
    show x ∈ (if it.monthStr = k then f it :: rest
              else it :: updateReport rest k f).map MonthlyReportItem.monthStr ↔ _
    by_cases hk : it.monthStr = k
    · rw [if_pos hk]
      simp only [List.map_cons, List.mem_cons, hkey, hk]
      tauto
    · rw [if_neg hk]
      simp only [List.map_cons, List.mem_cons, ih]
      tauto

theorem keysNodup_updateReport (rep : List MonthlyReportItem) (k : Int × Nat)
    (f : MonthlyReportItem → MonthlyReportItem)
    (hkey : ∀ it, (f it).monthStr = it.monthStr) (h : keysNodup rep) :
    keysNodup (updateReport rep k f) := by
  induction rep with
  | nil =>
    show keysNodup [f (initReportMonth k)]
    simp [keysNodup]
  | cons it rest ih =>
    rw [keysNodup, List.map_cons, List.nodup_cons] at h
    show keysNodup (if it.monthStr = k then f it :: rest else it :: updateReport rest k f)
    by_cases hk : it.monthStr = k
    · rw [if_pos hk, keysNodup, List.map_cons, List.nodup_cons, hkey]
      exact ⟨h.1, h.2⟩
    · rw [if_neg hk, keysNodup, List.map_cons, List.nodup_cons]
      refine ⟨?_, ih h.2⟩
      intro hmem
      rcases (mem_keys_updateReport rest k f hkey it.monthStr).mp hmem with hm | hm
      · exact h.1 hm
      · exact hk hm

theorem keysNodup_interest_foldl (L : List Nat) (rep : List MonthlyReportItem)
    (key : Nat → Int × Nat) (F : Nat → MonthlyReportItem → MonthlyReportItem)
    (hkey : ∀ j it, (F j it).monthStr = it.monthStr) (h : keysNodup rep) :
    keysNodup (L.foldl (fun acc j => updateReport acc (key j) (F j)) rep) := by
  induction L generalizing rep with
  | nil => exact h
  | cons j t ih =>
    exact ih (updateReport rep (key j) (F j))
      (keysNodup_updateReport rep (key j) (F j) (hkey j) h)

theorem keysNodup_addInv (rep : List MonthlyReportItem) (inv : Investment)
    (h : keysNodup rep) : keysNodup (addInvToReport rep inv) := by
  show keysNodup ((List.range inv.duration).foldl
      (fun acc j => updateReport acc (monthKey (addMonthsJS inv.startDate (j + 1)))
        (interestUpdate inv j))
      (updateReport (updateReport rep (monthKey inv.startDate) (capInUpdate inv))
        (monthKey inv.endDate) (capOutUpdate inv)))
  exact keysNodup_interest_foldl (List.range inv.duration) _
    (fun j => monthKey (addMonthsJS inv.startDate (j + 1))) (interestUpdate inv)
    (fun j it => rfl)
    (keysNodup_updateReport _ (monthKey inv.endDate) (capOutUpdate inv) (fun it => rfl)
      (keysNodup_updateReport _ (monthKey inv.startDate) (capInUpdate inv) (fun it => rfl) h))

theorem keysNodup_report (l : List Investment) :
    keysNodup (l.foldl addInvToReport []) := by
  have main : ∀ rep, keysNodup rep → keysNodup (l.foldl addInvToReport rep) := by
    induction l with
    | nil => intro rep h; exact h
    | cons inv t ih =>
      intro rep h
      exact ih (addInvToReport rep inv) (keysNodup_addInv rep inv h)
  exact main [] (by simp [keysNodup])

theorem lookupMonth_eq_none_iff (rep : List MonthlyReportItem) (k : Int × Nat) :
    lookupMonth rep k = none ↔ k ∉ rep.map MonthlyReportItem.monthStr := by
  induction rep with
  | nil => simp [lookupMonth]
  | cons it rest ih =>
    by_cases h : it.monthStr = k
    · simp [lookupMonth, h, ih]
    · simp only [lookupMonth, if_neg h, ih, List.map_cons, List.mem_cons]
      constructor
      · intro hh hc
        rcases hc with hc | hc
        · exact h hc.symm
        · exact hh hc
      · intro hh hc
        exact hh (Or.inr hc)

theorem lookupMonth_eq_some_iff (k : Int × Nat) (x : MonthlyReportItem) :
    ∀ rep : List MonthlyReportItem, keysNodup rep →
      (lookupMonth rep k = some x ↔ x ∈ rep ∧ x.monthStr = k) := by
  intro rep
  induction rep with
  | nil => intro _; simp [lookupMonth]
  | cons it rest ih =>
    intro hn
    rw [keysNodup, List.map_cons, List.nodup_cons] at hn
    show (if it.monthStr = k then some it else lookupMonth rest k) = some x ↔ _
    by_cases h : it.monthStr = k
    · rw [if_pos h]
      constructor
      · intro hh
        have hx : it = x := Option.some.inj hh
        exact ⟨hx ▸ List.mem_cons_self it rest, hx ▸ h⟩
      · rintro ⟨hmem, hkey2⟩
        rcases List.mem_cons.mp hmem with hx | hmem2
        · rw [hx]
        · exfalso
          apply hn.1
          rw [h, ← hkey2]
          exact List.mem_map_of_mem _ hmem2
    · rw [if_neg h, ih hn.2]
      constructor
      · rintro ⟨hmem, hk2⟩
        exact ⟨List.mem_cons_of_mem it hmem, hk2⟩
      · rintro ⟨hmem, hk2⟩
        rcases List.mem_cons.mp hmem with hx | hmem2
        · exact absurd (hx ▸ hk2) h
        · exact ⟨hmem2, hk2⟩

/-- On reports with unique keys, bucket lookup is invariant under
permutation — in particular under the final sort. -/
theorem lookupMonth_perm {rep rep' : List MonthlyReportItem}
    (h : rep.Perm rep') (hn : keysNodup rep) (k : Int × Nat) :
    lookupMonth rep' k = lookupMonth rep k := by
  have hn' : keysNodup rep' := (h.map MonthlyReportItem.monthStr).nodup hn
  cases hc : lookupMonth rep k with
  | none =>
    rw [lookupMonth_eq_none_iff] at hc
    rw [lookupMonth_eq_none_iff]
    intro hmem
    exact hc (((h.map MonthlyReportItem.monthStr).mem_iff).mpr hmem)
  | some x =>
    rw [lookupMonth_eq_some_iff k x rep hn] at hc
    rw [lookupMonth_eq_some_iff k x rep' hn']
    exact ⟨h.mem_iff.mp hc.1, hc.2⟩

theorem any_perm {α : Type} {p : α → Bool} {l₁ l₂ : List α} (h : l₁.Perm l₂) :
    l₁.any p = l₂.any p := by
  induction h with
  | nil => rfl
  | cons x _ ih => simp only [List.any_cons, ih]
  | swap x y t =>
    simp only [List.any_cons]
    cases p x <;> cases p y <;> simp
  | trans _ _ ih1 ih2 => exact ih1.trans ih2

/-- C6: the ledger aggregator is order-independent — permuting the investment
collection yields a report with the same set of month keys and, for each
month, identical newCapital, returnedCapital, interestExpected and
interestActual totals. -/
theorem claim6_order_independent (l₁ l₂ : List Investment) (h : l₁.Perm l₂) :
    (∀ k, hasMonth (getMonthlyReport l₁) k ↔ hasMonth (getMonthlyReport l₂) k) ∧
    (∀ k, totalsAt (getMonthlyReport l₁) k = totalsAt (getMonthlyReport l₂) k) := by
  have hn1 := keysNodup_report l₁
  have hn2 := keysNodup_report l₂
  have hl1 : ∀ k, lookupMonth (getMonthlyReport l₁) k
      = lookupMonth (l₁.foldl addInvToReport []) k :=
    fun k => lookupMonth_perm (sortByMonth_perm _).symm hn1 k
  have hl2 : ∀ k, lookupMonth (getMonthlyReport l₂) k
      = lookupMonth (l₂.foldl addInvToReport []) k :=
    fun k => lookupMonth_perm (sortByMonth_perm _).symm hn2 k
  constructor
  · intro k
    show (lookupMonth (getMonthlyReport l₁) k).isSome = true ↔
      (lookupMonth (getMonthlyReport l₂) k).isSome = true
    rw [hl1 k, hl2 k, isSome_report_foldl l₁ [] k, isSome_report_foldl l₂ [] k,
      any_perm (p := fun inv => touchesB inv k) h]
  · intro k
    show ((lookupMonth (getMonthlyReport l₁) k).map totalsOf).getD zeroTotals
      = ((lookupMonth (getMonthlyReport l₂) k).map totalsOf).getD zeroTotals
    rw [hl1 k, hl2 k]
    show totalsAt (l₁.foldl addInvToReport []) k = totalsAt (l₂.foldl addInvToReport []) k
    rw [totalsAt_report_foldl l₁ [] k, totalsAt_report_foldl l₂ [] k,
      sumTotals_perm (h.map (fun inv => invContrib inv k))]

/-- Sample records shared by the concrete witnesses. -/
def sampleInv1 : Investment :=
  { id := "a", source := "bankA", funders := [], amount := 500000, rate := 6 / 5,
    introFeeRate := 1 / 2, introFeePaid := false, introFeePaidDate := none,
    startDate := ⟨2025, 1, 15⟩, endDate := ⟨2025, 7, 15⟩, duration := 6,
    ticketNumber := none, note := "", status := InvestmentStatus.Active,
    paymentHistory := [(1, ⟨true, some ("2025-02-15"), none⟩)], order := 1 }

def sampleInv2 : Investment :=
  { id := "b", source := "bankB", funders := [⟨"fb", "funderB", 300000, none⟩],
    amount := 300000, rate := 1, introFeeRate := 1, introFeePaid := true,
    introFeePaidDate := none, startDate := ⟨2024, 12, 31⟩, endDate := ⟨2025, 12, 31⟩,
    duration := 12, ticketNumber := some ("t2"), note := "n",
    status := InvestmentStatus.Active, paymentHistory := [], order := 2 }

/-- C6 (witness). -/
theorem claim6_witness :
    ([sampleInv1, sampleInv2].Perm [sampleInv2, sampleInv1]) ∧
    ((∀ k, hasMonth (getMonthlyReport [sampleInv1, sampleInv2]) k ↔
        hasMonth (getMonthlyReport [sampleInv2, sampleInv1]) k) ∧
      (∀ k, totalsAt (getMonthlyReport [sampleInv1, sampleInv2]) k
        = totalsAt (getMonthlyReport [sampleInv2, sampleInv1]) k)) :=
  ⟨List.Perm.swap sampleInv2 sampleInv1 [],
    claim6_order_independent _ _ (List.Perm.swap sampleInv2 sampleInv1 [])⟩

/-! ### Merge resolver (src/App.tsx `handleImportConfirm`) -/

inductive MergeStrategy
  | skip | overwrite | new
deriving DecidableEq, Repr

/-- `prev.length > 0 ? Math.max(...prev.map(i => i.order || 0)) : 0`
(`x || 0` is the identity on numbers since `0 || 0 = 0`). -/
def jsMaxOrder (l : List Investment) : Int :=
  match l.map Investment.order with
  | [] => 0
  | x :: xs => xs.foldl max x

/-- `generateId()` draws a fresh opaque identifier; the generator is modeled
as a supply `fresh : Nat → String` consumed left to right. -/
def cloneFunders (fresh : Nat → String) : Nat → List Funder → List Funder × Nat
  | c, [] => ([], c)
  | c, f :: t =>
    let rest := cloneFunders fresh (c + 1) t
    ({ f with id := fresh c } :: rest.1, rest.2)

/-- The `strategy === 'new'` branch body: every candidate is appended with a
fresh id, fresh funder ids, and order `maxOrder + idx + 1`. -/
def cloneItems (fresh : Nat → String) (maxOrder : Int) :
    Nat → Nat → List Investment → List Investment
  | _, _, [] => []
  | c, idx, item :: t =>
    let fs := cloneFunders fresh (c + 1) item.funders
    { item with id := fresh c, funders := fs.1, order := maxOrder + idx + 1 }
      :: cloneItems fresh maxOrder fs.2 (idx + 1) t

/-- src/App.tsx `handleImportConfirm`: under `new` every candidate is cloned and
appended; otherwise candidates are split by id-conflict against the existing
collection, conflicting ones replace the existing content under `overwrite`
(keeping the existing order) and are dropped under `skip`, and the
non-conflicting ones are appended with orders continuing from the current
maximum. -/
def handleImportConfirm (strategy : MergeStrategy) (fresh : Nat → String)
    (importCandidates prev : List Investment) : List Investment :=
  match strategy with
  | .new => prev ++ cloneItems fresh (jsMaxOrder prev) 0 0 importCandidates
  | _ =>
    let existingIds := prev.map Investment.id
    let conflicts := importCandidates.filter (fun i => decide (i.id ∈ existingIds))
    let newItems := importCandidates.filter (fun i => decide (i.id ∉ existingIds))
    let result :=
      if strategy = .overwrite then
        prev.map (fun item =>
          match (conflicts.reverse).find? (fun c => c.id == item.id) with
          | some c => { c with order := item.order }
          | none => item)
      else prev
    let currentMaxOrder := jsMaxOrder result
    result ++ newItems.enum.map (fun p => { p.2 with order := currentMaxOrder + p.1 + 1 })

theorem foldlMax_init (xs : List Int) : ∀ x, x ≤ xs.foldl max x := by
  induction xs with
  | nil => intro x; exact le_refl x
  | cons y t ih => intro x; exact le_trans (le_max_left x y) (ih (max x y))

theorem foldlMax_mem (xs : List Int) : ∀ x a, a ∈ xs → a ≤ xs.foldl max x := by
  induction xs with
  | nil => intro x a ha; simp at ha
  | cons y t ih =>
    intro x a ha
    rcases List.mem_cons.mp ha with rfl | ha
    · exact le_trans (le_max_right x a) (foldlMax_init t (max x a))
    · exact ih (max x y) a ha

theorem le_jsMaxOrder (l : List Investment) (e : Investment) (he : e ∈ l) :
    e.order ≤ jsMaxOrder l := by
  unfold jsMaxOrder
  cases hm : l.map Investment.order with
  | nil =>
    rw [List.map_eq_nil_iff] at hm
    subst hm
    simp at he
  | cons x xs =>
    have hmem : e.order ∈ x :: xs := hm ▸ List.mem_map_of_mem Investment.order he
    rcases List.mem_cons.mp hmem with heq | hmem2
    · rw [heq]; exact foldlMax_init xs x
    · exact foldlMax_mem xs x e.order hmem2

/-- C7: merging with strategy `skip` appends exactly the incoming records
whose id conflicts with no existing id, leaves every existing record (id,
content, order, position) unchanged, and gives each appended record the fresh
sort-order `max(existing orders) + 1 + position`, strictly increasing and
colliding with no existing order. -/
theorem claim7_skip_merge (fresh : Nat → String) (incoming prev : List Investment) :
    (handleImportConfirm .skip fresh incoming prev).length
      = prev.length
        + (incoming.filter (fun i => decide (i.id ∉ prev.map Investment.id))).length ∧
    (handleImportConfirm .skip fresh incoming prev).take prev.length = prev ∧
    (handleImportConfirm .skip fresh incoming prev).drop prev.length
      = (incoming.filter (fun i => decide (i.id ∉ prev.map Investment.id))).enum.map
          (fun p => { p.2 with order := jsMaxOrder prev + p.1 + 1 }) ∧
    ((handleImportConfirm .skip fresh incoming prev).drop prev.length).Pairwise
      (fun a b => a.order < b.order) ∧
    (∀ a ∈ (handleImportConfirm .skip fresh incoming prev).drop prev.length,
      ∀ e ∈ prev, e.order ≠ a.order) := by
  have hred : handleImportConfirm .skip fresh incoming prev
      = prev ++ (incoming.filter (fun i => decide (i.id ∉ prev.map Investment.id))).enum.map
          (fun p => { p.2 with order := jsMaxOrder prev + p.1 + 1 }) := rfl
  have hdrop3 : (handleImportConfirm .skip fresh incoming prev).drop prev.length
      = (incoming.filter (fun i => decide (i.id ∉ prev.map Investment.id))).enum.map
          (fun p => { p.2 with order := jsMaxOrder prev + p.1 + 1 }) := by
    rw [hred]; exact List.drop_left _ _
  refine ⟨?_, ?_, hdrop3, ?_, ?_⟩
  · rw [hred]
    simp [List.length_append, List.enum_length]
  · rw [hred]; exact List.take_left _ _
  · rw [hdrop3, List.pairwise_iff_get]
    intro i j hij
    simp only [List.get_eq_getElem, List.getElem_map, List.getElem_enum]
    have hij2 : (i : Nat) < (j : Nat) := hij
    omega
  · intro a ha e he
    rw [hdrop3] at ha
    rcases List.mem_iff_get.mp ha with ⟨i, hi⟩
    have horder : a.order = jsMaxOrder prev + (i : Nat) + 1 := by
      rw [← hi]
      simp only [List.get_eq_getElem, List.getElem_map, List.getElem_enum]
    have hle := le_jsMaxOrder prev e he
    omega

/-- Field-by-field relation between an appended clone and its incoming
source: fresh id, funders cloned pointwise with fresh ids, all other content
preserved, and the fresh sort-order `maxOrder + idx + 1`. -/
def funderCloneRel (fresh : Nat → String) (fo fs : Funder) : Prop :=
  (∃ c, fo.id = fresh c) ∧ fo.name = fs.name ∧ fo.amount = fs.amount ∧
    fo.ticketNumber = fs.ticketNumber

def cloneRel (fresh : Nat → String) (maxOrder : Int) (idx : Nat)
    (out src : Investment) : Prop :=
  (∃ c, out.id = fresh c) ∧
  List.Forall₂ (funderCloneRel fresh) out.funders src.funders ∧
  out.source = src.source ∧ out.amount = src.amount ∧ out.rate = src.rate ∧
  out.introFeeRate = src.introFeeRate ∧ out.introFeePaid = src.introFeePaid ∧
  out.introFeePaidDate = src.introFeePaidDate ∧ out.startDate = src.startDate ∧
  out.endDate = src.endDate ∧ out.duration = src.duration ∧
  out.ticketNumber = src.ticketNumber ∧ out.note = src.note ∧
  out.status = src.status ∧ out.paymentHistory = src.paymentHistory ∧
  out.order = maxOrder + idx + 1

theorem cloneFunders_spec (fresh : Nat → String) :
    ∀ (fs : List Funder) (c : Nat),
      List.Forall₂ (funderCloneRel fresh) (cloneFunders fresh c fs).1 fs := by
  intro fs
  induction fs with
  | nil => intro c; exact List.Forall₂.nil
  | cons f t ih =>
    intro c
    show List.Forall₂ _ ({ f with id := fresh c } :: (cloneFunders fresh (c + 1) t).1)
      (f :: t)
    exact List.Forall₂.cons ⟨⟨c, rfl⟩, rfl, rfl, rfl⟩ (ih (c + 1))

theorem cloneItems_length (fresh : Nat → String) (maxOrder : Int) :
    ∀ (l : List Investment) (c idx : Nat),
      (cloneItems fresh maxOrder c idx l).length = l.length := by
  intro l
  induction l with
  | nil => intro c idx; rfl
  | cons item t ih =>
    intro c idx
    show ({ item with
              id := fresh c,
              funders := (cloneFunders fresh (c + 1) item.funders).1,
              order := maxOrder + idx + 1 }
        :: cloneItems fresh maxOrder (cloneFunders fresh (c + 1) item.funders).2
            (idx + 1) t).length = (item :: t).length
    rw [List.length_cons, List.length_cons, ih]

theorem cloneItems_get (fresh : Nat → String) (maxOrder : Int) :
    ∀ (l : List Investment) (c idx j : Nat)
      (h1 : j < (cloneItems fresh maxOrder c idx l).length) (h2 : j < l.length),
      cloneRel fresh maxOrder (idx + j)
        ((cloneItems fresh maxOrder c idx l).get ⟨j, h1⟩) (l.get ⟨j, h2⟩) := by
  intro l
  induction l with
  | nil => intro c idx j h1 h2; simp at h2
  | cons item t ih =>
    intro c idx j h1 h2
    cases j with
    | zero =>
      show cloneRel fresh maxOrder (idx + 0)
        ({ item with
             id := fresh c,
             funders := (cloneFunders fresh (c + 1) item.funders).1,
             order := maxOrder + idx + 1 }) item
      refine ⟨⟨c, rfl⟩, cloneFunders_spec fresh item.funders (c + 1),
        rfl, rfl, rfl, rfl, rfl, rfl, rfl, rfl, rfl, rfl, rfl, rfl, rfl, ?_⟩
      show maxOrder + (idx : Int) + 1 = maxOrder + ((idx + 0 : Nat) : Int) + 1
      norm_num
    | succ j =>
      have h3 := cloneItems_length fresh maxOrder (item :: t) c idx
      rw [List.length_cons] at h3
      have hlt : j < t.length := by
        rw [h3] at h1
        omega
      have hlt2 : j < (cloneItems fresh maxOrder
          (cloneFunders fresh (c + 1) item.funders).2 (idx + 1) t).length := by
        rw [cloneItems_length]; exact hlt
      have hrel := ih (cloneFunders fresh (c + 1) item.funders).2 (idx + 1) j hlt2 hlt
      have heq : idx + 1 + j = idx + (j + 1) := by omega
      rw [heq] at hrel
      exact hrel

theorem forall₂_mem_left {α β : Type} {R : α → β → Prop} :
    ∀ {l1 : List α} {l2 : List β}, List.Forall₂ R l1 l2 → ∀ a ∈ l1, ∃ b ∈ l2, R a b := by
  intro l1 l2 h
  induction h with
  | nil => intro a ha; simp at ha
  | cons hr _ ih =>
    intro a ha
    rcases List.mem_cons.mp ha with rfl | ha2
    · exact ⟨_, List.mem_cons_self _ _, hr⟩
    · rcases ih a ha2 with ⟨b, hb, hrb⟩
      exact ⟨b, List.mem_cons_of_mem _ hb, hrb⟩

/-- C8: merging with strategy `new` (the spec's `clone`) appends every
incoming record — size grows by `|incoming|` — each appended record being its
incoming source with a brand-new identifier, new identifiers for all nested
funders, and the fresh sort-order `max(existing orders) + 1 + position`; the
new identifiers avoid the existing collection's original id set whenever the
id supply does, and no existing record is modified. -/
theorem claim8_clone_merge (fresh : Nat → String) (incoming prev : List Investment)
    (hFresh : ∀ n, fresh n ∉ prev.map Investment.id) :
    (handleImportConfirm .new fresh incoming prev).length
      = prev.length + incoming.length ∧
    (handleImportConfirm .new fresh incoming prev).take prev.length = prev ∧
    ((handleImportConfirm .new fresh incoming prev).drop prev.length).length
      = incoming.length ∧
    (∀ j (h1 : j < ((handleImportConfirm .new fresh incoming prev).drop
          prev.length).length) (h2 : j < incoming.length),
      cloneRel fresh (jsMaxOrder prev) j
        (((handleImportConfirm .new fresh incoming prev).drop prev.length).get ⟨j, h1⟩)
        (incoming.get ⟨j, h2⟩)) ∧
    (∀ out ∈ (handleImportConfirm .new fresh incoming prev).drop prev.length,
      out.id ∉ prev.map Investment.id ∧
        ∀ f ∈ out.funders, f.id ∉ prev.map Investment.id) := by
  have hred : handleImportConfirm .new fresh incoming prev
      = prev ++ cloneItems fresh (jsMaxOrder prev) 0 0 incoming := rfl
  have hdropped : (handleImportConfirm .new fresh incoming prev).drop prev.length
      = cloneItems fresh (jsMaxOrder prev) 0 0 incoming := by
    rw [hred]; exact List.drop_left _ _
  have hlenC := cloneItems_length fresh (jsMaxOrder prev) incoming 0 0
  have hdlen : ((handleImportConfirm .new fresh incoming prev).drop prev.length).length
      = incoming.length := by rw [hdropped, hlenC]
  refine ⟨?_, ?_, hdlen, ?_, ?_⟩
  · rw [hred, List.length_append, hlenC]
  · rw [hred]; exact List.take_left _ _
  · intro j h1 h2
    have hcast := List.get_of_eq hdropped ⟨j, h1⟩
    rw [hcast]
    have hrel := cloneItems_get fresh (jsMaxOrder prev) incoming 0 0 j
      (by rw [hlenC]; exact h2) h2
    rw [Nat.zero_add] at hrel
    exact hrel
  · intro out hout
    rw [hdropped] at hout
    rcases List.mem_iff_get.mp hout with ⟨⟨j, hj⟩, hget⟩
    have hrel := cloneItems_get fresh (jsMaxOrder prev) incoming 0 0 j hj
      (by rw [← hlenC]; exact hj)
    rw [Nat.zero_add, hget] at hrel
    obtain ⟨⟨c, hc⟩, hf2, -⟩ := hrel
    constructor
    · rw [hc]; exact hFresh c
    · intro f hf
      rcases forall₂_mem_left hf2 f hf with ⟨g, -, ⟨c2, hc2⟩, -⟩
      rw [hc2]; exact hFresh c2

/-- C8 (witness). -/
theorem claim8_witness :
    (∀ _n : Nat, ("fresh-x" : String) ∉ [sampleInv1].map Investment.id) ∧
    ((handleImportConfirm .new (fun _ => ("fresh-x" : String)) [sampleInv2]
        [sampleInv1]).length = [sampleInv1].length + [sampleInv2].length ∧
      (handleImportConfirm .new (fun _ => ("fresh-x" : String)) [sampleInv2]
        [sampleInv1]).take [sampleInv1].length = [sampleInv1] ∧
      ((handleImportConfirm .new (fun _ => ("fresh-x" : String)) [sampleInv2]
        [sampleInv1]).drop [sampleInv1].length).length = [sampleInv2].length ∧
      (∀ j (h1 : j < ((handleImportConfirm .new (fun _ => ("fresh-x" : String))
            [sampleInv2] [sampleInv1]).drop [sampleInv1].length).length)
          (h2 : j < [sampleInv2].length),
        cloneRel (fun _ => ("fresh-x" : String)) (jsMaxOrder [sampleInv1]) j
          (((handleImportConfirm .new (fun _ => ("fresh-x" : String)) [sampleInv2]
            [sampleInv1]).drop [sampleInv1].length).get ⟨j, h1⟩)
          ([sampleInv2].get ⟨j, h2⟩)) ∧
      (∀ out ∈ (handleImportConfirm .new (fun _ => ("fresh-x" : String)) [sampleInv2]
          [sampleInv1]).drop [sampleInv1].length,
        out.id ∉ [sampleInv1].map Investment.id ∧
          ∀ f ∈ out.funders, f.id ∉ [sampleInv1].map Investment.id)) :=
  have hf : ∀ _n : Nat, ("fresh-x" : String) ∉ [sampleInv1].map Investment.id :=
    fun _ => by decide
  ⟨hf, claim8_clone_merge (fun _ => ("fresh-x" : String)) [sampleInv2] [sampleInv1] hf⟩

/-! ### Bulk mark-paid (src/App.tsx `handleBulkPay`) -/

/-- The due date `d` lies within the target month: the source compares the
due date's timestamp against the first and the last day of the month
(`d >= targetMonthStart && d <= targetMonthEnd`). -/
def dueInMonth (target : Int × Nat) (d : Date) : Bool :=
  dateLeB ⟨target.1, target.2, 1⟩ d &&
    dateLeB d ⟨target.1, target.2, daysInMonth target.1 target.2⟩

/-- Period `i` of the investment is marked by the bulk operation: its due
date falls in the target month and it is not already paid. -/
def shouldMark (target : Int × Nat) (inv : Investment) (i : Nat) : Bool :=
  dueInMonth target (addMonthsJS inv.startDate i) && !(histPaidB inv.paymentHistory i)

/-- The fixed note the bulk operation writes. -/
def bulkNote : String := "一鍵入帳"

/-- The record the bulk operation writes for a marked period. -/
def bulkRecord (today : String) : PaymentRecord := ⟨true, some today, some bulkNote⟩

/-- One step of `handleBulkPay`'s inner `for` loop over period `j+1`. -/
def bulkStep (target : Int × Nat) (today : String) (inv : Investment)
    (acc : List (Nat × PaymentRecord) × Bool) (j : Nat) :
    List (Nat × PaymentRecord) × Bool :=
  if dueInMonth target (addMonthsJS inv.startDate (j + 1)) then
    if !(histPaidB acc.1 (j + 1)) then
      (histSet acc.1 (j + 1) (bulkRecord today), true)
    else acc
  else acc

/-- The per-investment body of `handleBulkPay`: walk periods `1..duration`
over a copy of the payment history, replacing each unpaid period due in the
target month with a paid record (paid date = today, fixed bulk note), and
return the investment unchanged when nothing was marked. -/
def bulkPayInv (target : Int × Nat) (today : String) (inv : Investment) : Investment :=
  let res := (List.range inv.duration).foldl (bulkStep target today inv)
    (inv.paymentHistory, false)
  if res.2 then { inv with paymentHistory := res.1 } else inv

/-- src/App.tsx `handleBulkPay`: independent per-investment updates. -/
def handleBulkPay (target : Int × Nat) (today : String) (invs : List Investment) :
    List Investment :=
  invs.map (bulkPayInv target today)

theorem histLookup_histSet_self (h : List (Nat × PaymentRecord)) (i : Nat)
    (r : PaymentRecord) : histLookup (histSet h i r) i = some r := by
  induction h with
  | nil => simp [histSet, histLookup]
  | cons p t ih =>
    by_cases hp : p.1 = i
    · simp [histSet, hp, histLookup]
    · simp [histSet, hp, histLookup, ih]

theorem histLookup_histSet_other (h : List (Nat × PaymentRecord)) (i i' : Nat)
    (r : PaymentRecord) (hne : ¬ i' = i) :
    histLookup (histSet h i r) i' = histLookup h i' := by
  have h2 : ¬ i = i' := fun hh => hne hh.symm
  induction h with
  | nil =>
    rw [show histLookup (histSet [] i r) i' = if i = i' then some r else none from rfl,
      if_neg h2]
    rfl
  | cons p t ih =>
    show histLookup (if p.1 = i then (i, r) :: t else p :: histSet t i r) i' = _
    by_cases hp : p.1 = i
    · have h3 : ¬ p.1 = i' := by rw [hp]; exact h2
      rw [if_pos hp,
        show histLookup ((i, r) :: t) i' = if i = i' then some r else histLookup t i'
          from rfl,
        if_neg h2,
        show histLookup (p :: t) i' = if p.1 = i' then some p.2 else histLookup t i'
          from rfl,
        if_neg h3]
    · rw [if_neg hp,
        show histLookup (p :: histSet t i r) i'
          = if p.1 = i' then some p.2 else histLookup (histSet t i r) i' from rfl,
        show histLookup (p :: t) i' = if p.1 = i' then some p.2 else histLookup t i'
          from rfl]
      by_cases hq : p.1 = i'
      · rw [if_pos hq, if_pos hq]
      · rw [if_neg hq, if_neg hq, ih]

/-- One loop step, rephrased as a two-way case split on its conditions. -/
theorem bulkStep_apply (target : Int × Nat) (today : String) (inv : Investment)
    (acc : List (Nat × PaymentRecord) × Bool) (j : Nat) :
    bulkStep target today inv acc j
      = if dueInMonth target (addMonthsJS inv.startDate (j + 1)) = true
        then (if histPaidB acc.1 (j + 1) = true then acc
              else (histSet acc.1 (j + 1) (bulkRecord today), true))
        else acc := by
  unfold bulkStep
  by_cases hdue : dueInMonth target (addMonthsJS inv.startDate (j + 1)) = true <;>
    by_cases hp : histPaidB acc.1 (j + 1) = true <;>
    simp [hdue, hp]

/-- Invariant of the bulk loop after the first `n` periods: periods
`1..n` that should be marked now hold the bulk record, every other key is
untouched, and the changed flag records whether any period was marked. -/
theorem bulkFold_invariant (target : Int × Nat) (today : String) (inv : Investment)
    (n : Nat) :
    (∀ i', histLookup ((List.range n).foldl (bulkStep target today inv)
        (inv.paymentHistory, false)).1 i'
      = if 1 ≤ i' ∧ i' ≤ n ∧ shouldMark target inv i' = true
        then some (bulkRecord today)
        else histLookup inv.paymentHistory i') ∧
    ((List.range n).foldl (bulkStep target today inv)
        (inv.paymentHistory, false)).2
      = (List.range n).any (fun j => shouldMark target inv (j + 1)) := by
  induction n with
  | zero =>
    constructor
    · intro i'
      rw [if_neg (by omega)]
      rfl
    · rfl
  | succ n ih =>
    obtain ⟨ih1, ih2⟩ := ih
    have hpaid : histPaidB ((List.range n).foldl (bulkStep target today inv)
        (inv.paymentHistory, false)).1 (n + 1)
        = histPaidB inv.paymentHistory (n + 1) := by
      unfold histPaidB
      rw [ih1 (n + 1), if_neg (by omega)]
    constructor
    · intro i'
      rw [List.range_succ, List.foldl_append, List.foldl_cons, List.foldl_nil,
        bulkStep_apply]
      simp only [hpaid]
      by_cases hdue : dueInMonth target (addMonthsJS inv.startDate (n + 1)) = true
      · rw [if_pos hdue]
        by_cases hp : histPaidB inv.paymentHistory (n + 1) = true
        · have hsm : shouldMark target inv (n + 1) = false := by
            unfold shouldMark
            rw [hp, hdue]
            rfl
          rw [if_pos hp, ih1 i']
          by_cases hi : i' = n + 1
          · rw [if_neg (fun hc => absurd hc.2.1 (by omega)),
              if_neg (by rw [hi, hsm]; simp)]
          · by_cases hc : 1 ≤ i' ∧ i' ≤ n ∧ shouldMark target inv i' = true
            · rw [if_pos hc, if_pos ⟨hc.1, by have h5 := hc.2.1; omega, hc.2.2⟩]
            · rw [if_neg hc,
                if_neg (fun hcc => hc ⟨hcc.1, by have h5 := hcc.2.1; omega, hcc.2.2⟩)]
        · have hp2 : histPaidB inv.paymentHistory (n + 1) = false :=
            Bool.eq_false_iff.mpr hp
          have hsm : shouldMark target inv (n + 1) = true := by
            unfold shouldMark
            rw [hp2, hdue]
            rfl
          rw [if_neg hp]
          by_cases hi : i' = n + 1
          · rw [hi]
            show histLookup (histSet _ (n + 1) (bulkRecord today)) (n + 1) = _
            rw [histLookup_histSet_self, if_pos ⟨by omega, by omega, hsm⟩]
          · show histLookup (histSet _ (n + 1) (bulkRecord today)) i' = _
            rw [histLookup_histSet_other _ _ _ _ hi, ih1 i']
            by_cases hc : 1 ≤ i' ∧ i' ≤ n ∧ shouldMark target inv i' = true
            · rw [if_pos hc, if_pos ⟨hc.1, by have h5 := hc.2.1; omega, hc.2.2⟩]
            · rw [if_neg hc,
                if_neg (fun hcc => hc ⟨hcc.1, by have h5 := hcc.2.1; omega, hcc.2.2⟩)]
      · have hdue2 : dueInMonth target (addMonthsJS inv.startDate (n + 1)) = false :=
          Bool.eq_false_iff.mpr hdue
        have hsm : shouldMark target inv (n + 1) = false := by
          unfold shouldMark
          rw [hdue2]
          rfl
        rw [if_neg hdue, ih1 i']
        by_cases hi : i' = n + 1
        · rw [if_neg (fun hc => absurd hc.2.1 (by omega)),
            if_neg (by rw [hi, hsm]; simp)]
        · by_cases hc : 1 ≤ i' ∧ i' ≤ n ∧ shouldMark target inv i' = true
          · rw [if_pos hc, if_pos ⟨hc.1, by have h5 := hc.2.1; omega, hc.2.2⟩]
          · rw [if_neg hc,
              if_neg (fun hcc => hc ⟨hcc.1, by have h5 := hcc.2.1; omega, hcc.2.2⟩)]
    · rw [List.range_succ, List.foldl_append, List.foldl_cons, List.foldl_nil,
        List.any_append, List.any_cons, List.any_nil, bulkStep_apply]
      simp only [hpaid]
      by_cases hdue : dueInMonth target (addMonthsJS inv.startDate (n + 1)) = true
      · rw [if_pos hdue]
        by_cases hp : histPaidB inv.paymentHistory (n + 1) = true
        · have hsm : shouldMark target inv (n + 1) = false := by
            unfold shouldMark
            rw [hp, hdue]
            rfl
          rw [if_pos hp, ih2, hsm]
          simp
        · have hp2 : histPaidB inv.paymentHistory (n + 1) = false :=
            Bool.eq_false_iff.mpr hp
          have hsm : shouldMark target inv (n + 1) = true := by
            unfold shouldMark
            rw [hp2, hdue]
            rfl
          rw [if_neg hp, hsm]
          simp
      · have hdue2 : dueInMonth target (addMonthsJS inv.startDate (n + 1)) = false :=
          Bool.eq_false_iff.mpr hdue
        have hsm : shouldMark target inv (n + 1) = false := by
          unfold shouldMark
          rw [hdue2]
          rfl
        rw [if_neg hdue, ih2, hsm]
        simp

/-- Per-investment behavior of the bulk operation. -/
theorem bulkPayInv_spec (target : Int × Nat) (today : String) (inv : Investment) :
    (∀ i, 1 ≤ i → i ≤ inv.duration →
      histLookup (bulkPayInv target today inv).paymentHistory i
        = if shouldMark target inv i = true
          then some (bulkRecord today)
          else histLookup inv.paymentHistory i) ∧
    (∀ i, i = 0 ∨ inv.duration < i →
      histLookup (bulkPayInv target today inv).paymentHistory i
        = histLookup inv.paymentHistory i) ∧
    (bulkPayInv target today inv
      = { inv with paymentHistory := (bulkPayInv target today inv).paymentHistory }) ∧
    ((∀ i, 1 ≤ i → i ≤ inv.duration → shouldMark target inv i = false) →
      bulkPayInv target today inv = inv) := by
  obtain ⟨hinv1, hinv2⟩ := bulkFold_invariant target today inv inv.duration
  have hsplit : bulkPayInv target today inv
      = if ((List.range inv.duration).foldl (bulkStep target today inv)
            (inv.paymentHistory, false)).2
        then { inv with paymentHistory :=
          ((List.range inv.duration).foldl (bulkStep target today inv)
            (inv.paymentHistory, false)).1 }
        else inv := rfl
  by_cases hch : ((List.range inv.duration).foldl (bulkStep target today inv)
      (inv.paymentHistory, false)).2 = true
  · have hres : bulkPayInv target today inv
        = { inv with paymentHistory :=
            ((List.range inv.duration).foldl (bulkStep target today inv)
              (inv.paymentHistory, false)).1 } := by
      rw [hsplit, if_pos hch]
    refine ⟨?_, ?_, ?_, ?_⟩
    · intro i h1 h2
      rw [hres]
      show histLookup ((List.range inv.duration).foldl (bulkStep target today inv)
          (inv.paymentHistory, false)).1 i = _
      rw [hinv1 i]
      by_cases hm : shouldMark target inv i = true
      · rw [if_pos ⟨h1, h2, hm⟩, if_pos hm]
      · rw [if_neg (fun hcc => hm hcc.2.2), if_neg hm]
    · intro i hout
      rw [hres]
      show histLookup ((List.range inv.duration).foldl (bulkStep target today inv)
          (inv.paymentHistory, false)).1 i = _
      rw [hinv1 i, if_neg (fun hcc => by
        have h5 := hcc.1
        have h6 := hcc.2.1
        omega)]
    · rw [hres]
    · intro hall
      exfalso
      rw [hinv2] at hch
      rcases List.any_eq_true.mp hch with ⟨j, hj, hsm⟩
      rw [List.mem_range] at hj
      have := hall (j + 1) (by omega) (by omega)
      rw [this] at hsm
      exact Bool.false_ne_true hsm
  · have hres : bulkPayInv target today inv = inv := by
      rw [hsplit, if_neg hch]
    have hallfalse : ∀ i, 1 ≤ i → i ≤ inv.duration → shouldMark target inv i = false := by
      intro i h1 h2
      rw [hinv2] at hch
      by_cases hsm : shouldMark target inv i = true
      · exfalso
        apply hch
        refine List.any_eq_true.mpr ⟨i - 1, List.mem_range.mpr (by omega), ?_⟩
        rw [show i - 1 + 1 = i by omega]
        exact hsm
      · exact Bool.eq_false_iff.mpr hsm
    refine ⟨?_, ?_, ?_, fun _ => hres⟩
    · intro i h1 h2
      rw [hres, if_neg (by rw [hallfalse i h1 h2]; simp)]
    · intro i _
      rw [hres]
    · rw [hres]

/-- C9: the bulk mark-paid operation for a target month marks exactly the
unpaid periods whose due date falls in that month (writing the paid flag,
today's date and the fixed note), leaves every other period's record —
in particular every already-paid one — unchanged, changes no other field,
and returns any investment with no unpaid period due in that month
unchanged. -/
theorem claim9_bulk_pay (target : Int × Nat) (today : String) (invs : List Investment) :
    (handleBulkPay target today invs).length = invs.length ∧
    ∀ j (h1 : j < (handleBulkPay target today invs).length) (h2 : j < invs.length),
      (∀ i, 1 ≤ i → i ≤ (invs.get ⟨j, h2⟩).duration →
        histLookup ((handleBulkPay target today invs).get ⟨j, h1⟩).paymentHistory i
          = if shouldMark target (invs.get ⟨j, h2⟩) i = true
            then some (bulkRecord today)
            else histLookup (invs.get ⟨j, h2⟩).paymentHistory i) ∧
      (∀ i, i = 0 ∨ (invs.get ⟨j, h2⟩).duration < i →
        histLookup ((handleBulkPay target today invs).get ⟨j, h1⟩).paymentHistory i
          = histLookup (invs.get ⟨j, h2⟩).paymentHistory i) ∧
      ((handleBulkPay target today invs).get ⟨j, h1⟩
        = { invs.get ⟨j, h2⟩ with paymentHistory :=
            ((handleBulkPay target today invs).get ⟨j, h1⟩).paymentHistory }) ∧
      ((∀ i, 1 ≤ i → i ≤ (invs.get ⟨j, h2⟩).duration →
          shouldMark target (invs.get ⟨j, h2⟩) i = false) →
        (handleBulkPay target today invs).get ⟨j, h1⟩ = invs.get ⟨j, h2⟩) := by
  constructor
  · show (invs.map (bulkPayInv target today)).length = invs.length
    exact List.length_map invs (bulkPayInv target today)
  · intro j h1 h2
    have hget : (handleBulkPay target today invs).get ⟨j, h1⟩
        = bulkPayInv target today (invs.get ⟨j, h2⟩) := by
      show (invs.map (bulkPayInv target today)).get ⟨j, h1⟩ = _
      rw [List.get_eq_getElem, List.getElem_map, List.get_eq_getElem]
    rw [hget]
    exact bulkPayInv_spec target today (invs.get ⟨j, h2⟩)

end InvestMate
